import Mathlib

/-!
# Verification of the sse.js core (src/src/sse.ts)

A shallow embedding of the SSE client core: the line/field parser
(`_parseEventChunk`), the chunk assembler and connection state machine
(`_onStreamProgress`, `_onStreamLoaded`, `close`, ...), and the event
dispatcher (`dispatchEvent`, `addEventListener`, `removeEventListener`).

Strings are modelled as `List Char` (`Str`).  Each definition mirrors the
corresponding TypeScript function; the theorems at the end of the file settle
the specification claims.
-/

namespace SSEJS

/-- Strings from the source are modelled as lists of characters. -/
abbrev Str := List Char

/-- The ready states of the connection, as in the source
(`INITIALIZING = -1`, `CONNECTING = 0`, `OPEN = 1`, `CLOSED = 2`). -/
def INITIALIZING : Int := -1

/-- `CONNECTING = 0`. -/
def CONNECTING : Int := 0

/-- `OPEN = 1`. -/
def OPEN : Int := 1

/-- `CLOSED = 2`. -/
def CLOSED : Int := 2

/-- The observable content of an event constructed by `_parseEventChunk`:
its `type`, `data` and `id` properties (`SSEvent` in the source). -/
structure SSEvent where
  type : Str
  data : Str
  id : Option Str
deriving DecidableEq, Repr

/-! ## Field-level parsing (`_parseEventChunk`) -/

/-- `line.indexOf(':')` from the source: index of the first `':'`,
`-1` when absent (JavaScript `String.prototype.indexOf`). -/
def idxOfColon : Str → Int
  | [] => -1
  | c :: rest =>
    if c = ':' then 0
    else
      let r := idxOfColon rest
      if r < 0 then -1 else r + 1

/-- One line of a record, as analysed by the body of the `forEach` in
`_parseEventChunk`: `none` for a comment line (colon at position 0),
otherwise `some (field, value)`.  When the colon is at position `> 0` the
value is the text after the colon with at most one leading space stripped
(`skip`); when there is no colon the whole line is the field and the value
is empty. -/
def parseFieldLine (line : Str) : Option (Str × Str) :=
  let index := idxOfColon line
  if 0 < index then
    let i := index.toNat
    let rest := line.drop (i + 1)
    some (line.take i, if rest.head? = some ' ' then rest.tail else rest)
  else if index < 0 then
    some (line, [])
  else
    none

/-- The `eventFields` accumulator of `_parseEventChunk`:
`{ id: null, retry: null, data: null, event: null }`. -/
structure EventFields where
  id : Option Str := none
  retry : Option Str := none
  data : Option Str := none
  event : Option Str := none
deriving DecidableEq, Repr

/-- The keys of the `eventFields` object (the recognized field names). -/
def recognizedFields : List Str :=
  ["id".toList, "retry".toList, "data".toList, "event".toList]

/-- Processing of a single line by `_parseEventChunk`: comments and
unrecognized field names are ignored; consecutive `data` values are
concatenated with a newline; the other fields are assigned
(last write wins). -/
def processLine (f : EventFields) (line : Str) : EventFields :=
  match parseFieldLine line with
  | none => f
  | some (field, value) =>
    if field ∉ recognizedFields then f
    else if field = "data".toList ∧ f.data ≠ none then
      { f with data := some (f.data.getD [] ++ '\n' :: value) }
    else if field = "id".toList then { f with id := some value }
    else if field = "retry".toList then { f with retry := some value }
    else if field = "data".toList then { f with data := some value }
    else { f with event := some value }

/-- `consHead c l` prepends `c` to the first element of `l`
(used to build up the current segment of a split). -/
def consHead (c : Char) : List Str → List Str
  | [] => [[c]]
  | s :: ss => (c :: s) :: ss

/-- `chunk.split(/\n|\r\n|\r/)`: split a record into lines.  The regex
alternation tries `"\n"` first, then `"\r\n"`, then `"\r"`, scanning left to
right; separators are not kept (no capture group). -/
def splitLines : Str → List Str
  | [] => [[]]
  | '\n' :: rest => [] :: splitLines rest
  | '\r' :: '\n' :: rest => [] :: splitLines rest
  | '\r' :: rest => [] :: splitLines rest
  | c :: rest => consHead c (splitLines rest)

/-- `_parseEventChunk`: `null` for an empty chunk; otherwise fold the lines
into `eventFields` and construct the event, with type
`eventFields.event || "message"`, data `eventFields.data ?? ""` and id
`eventFields.id`. -/
def _parseEventChunk (chunk : Str) : Option SSEvent :=
  if chunk = [] then none
  else
    let f := (splitLines chunk).foldl processLine {}
    some { type := match f.event with
                   | none => "message".toList
                   | some e => if e = [] then "message".toList else e
           data := f.data.getD []
           id := f.id }

/-! ## Record splitting (the chunk assembler's regex) -/

/-- The first record delimiter alternative, `"\r\n\r\n"`. -/
def delimCRLF2 : Str := ['\r', '\n', '\r', '\n']

/-- The second record delimiter alternative, `"\r\r"`. -/
def delimCR2 : Str := ['\r', '\r']

/-- The third record delimiter alternative, `"\n\n"`. -/
def delimLF2 : Str := ['\n', '\n']

/-- Attempt to match one of the three record delimiters
(`\r\n\r\n`, `\r\r`, `\n\n`, in the alternation order of the regex
`/(\r\n\r\n|\r\r|\n\n)/g`) at the head of the string.  Returns the matched
delimiter and the remainder. -/
def matchDelim : Str → Option (Str × Str)
  | '\r' :: '\n' :: '\r' :: '\n' :: rest => some (delimCRLF2, rest)
  | '\r' :: '\r' :: rest => some (delimCR2, rest)
  | '\n' :: '\n' :: rest => some (delimLF2, rest)
  | _ => none

/-- `s.split(/(\r\n\r\n|\r\r|\n\n)/g)`: split into segments, keeping the
matched delimiters in the result (the regex has a capture group, so
JavaScript `split` interleaves the separators with the segments). -/
def splitRecords : Str → List Str
  | [] => [[]]
  | '\r' :: '\n' :: '\r' :: '\n' :: rest => [] :: delimCRLF2 :: splitRecords rest
  | '\r' :: '\r' :: rest => [] :: delimCR2 :: splitRecords rest
  | '\n' :: '\n' :: rest => [] :: delimLF2 :: splitRecords rest
  | c :: rest => consHead c (splitRecords rest)

/-- A line that `_parseEventChunk` ignores entirely: a comment (leading
colon) or a line whose field name is not recognized. -/
def lineIgnored (l : Str) : Bool :=
  match parseFieldLine l with
  | none => true
  | some fv => decide (fv.1 ∉ recognizedFields)

/-- A `data` field line, `"data: " + v`. -/
def dataLine (v : Str) : Str := "data: ".toList ++ v

/-- An `id` field line, `"id: " + v`. -/
def idLine (v : Str) : Str := "id: ".toList ++ v

/-- An `event` field line, `"event: " + v`. -/
def eventLine (v : Str) : Str := "event: ".toList ++ v

/-- A `retry` field line, `"retry: " + v`. -/
def retryLine (v : Str) : Str := "retry: ".toList ++ v

/-- Join a list of lines with single `"\n"` separators. -/
def joinNL : List Str → Str
  | [] => []
  | [v] => v
  | v :: vs => v ++ '\n' :: joinNL vs

/-- A string free of line terminators (it forms a single line). -/
def nlFree (s : Str) : Prop := ∀ ch ∈ s, ch ≠ '\n' ∧ ch ≠ '\r'

instance nlFreeDecidable (s : Str) : Decidable (nlFree s) :=
  inferInstanceAs (Decidable (∀ ch ∈ s, ch ≠ '\n' ∧ ch ≠ '\r'))

/-! ## Connection state machine and chunk assembler -/

/-- JavaScript `String.prototype.trim` whitespace test, restricted to the
whitespace characters relevant to the wire format. -/
def isWS (c : Char) : Bool :=
  c == ' ' || c == '\t' || c == '\n' || c == '\r' ||
  c == '\x0b' || c == '\x0c' || c == '\u00A0' || c == '\uFEFF'

/-- `s.trim()`: strip leading and trailing whitespace. -/
def trim (s : Str) : Str :=
  ((s.dropWhile isWS).reverse.dropWhile isWS).reverse

/-- The mutable fields of the `SSE` instance used by the state machine and
chunk assembler: `readyState`, `progress` (characters consumed so far),
`chunk` (the pending tail) and whether `this.xhr` is non-null. -/
structure SSEState where
  readyState : Int
  progress : Nat
  chunk : Str
  xhrAlive : Bool
deriving DecidableEq, Repr

/-- The state of a freshly constructed `SSE` instance (before `stream()`):
`readyState = INITIALIZING`, `progress = 0`, `chunk = ""`, `xhr = null`. -/
def freshState : SSEState :=
  { readyState := INITIALIZING, progress := 0, chunk := [], xhrAlive := false }

/-- One event handed to `dispatchEvent` by the state machine, as observed in
the dispatch trace: `open`, `error` (with its `data`), `abort`,
`readystatechange` (with the new state) or a parsed server event. -/
inductive OutEvent where
  | openEvt : OutEvent
  | errorEvt (data : Str) : OutEvent
  | abortEvt : OutEvent
  | rsc (state : Int) : OutEvent
  | dataEvt (e : SSEvent) : OutEvent
deriving DecidableEq, Repr

/-- Whether a trace entry is a parsed server event. -/
def isDataEvt : OutEvent → Bool
  | .dataEvt _ => true
  | _ => false

/-- The parsed server events of a dispatch trace. -/
def dataEvents (tr : List OutEvent) : List OutEvent :=
  tr.filter isDataEvt

/-- `_setReadyState(state)`: record the new state and dispatch a
`readystatechange` event carrying it. -/
def _setReadyState (st : SSEState) (s : Int) : SSEState × List OutEvent :=
  ({ st with readyState := s }, [.rsc s])

/-- `close()`: a no-op when already `CLOSED` or when `this.xhr` is null;
otherwise abort the transport, clear the handle and force `CLOSED`. -/
def close (st : SSEState) : SSEState × List OutEvent :=
  if st.readyState = CLOSED ∨ st.xhrAlive = false then (st, [])
  else _setReadyState { st with xhrAlive := false } CLOSED

/-- `_onStreamFailure(e)`: dispatch an `error` event whose `data` is the
response text, then `close()`. -/
def _onStreamFailure (st : SSEState) (responseText : Str) :
    SSEState × List OutEvent :=
  let c := close st
  (c.1, .errorEvt responseText :: c.2)

/-- `_onStreamAbort()`: dispatch an `abort` event, then `close()`. -/
def _onStreamAbort (st : SSEState) : SSEState × List OutEvent :=
  let c := close st
  (c.1, .abortEvt :: c.2)

/-- Dispatch of one split part by the `forEach` body in `_onStreamProgress`:
parts whose trimmed text is empty are skipped, the others are parsed and the
resulting event dispatched (`dispatchEvent(null)` is a no-op). -/
def partEvents (p : Str) : List OutEvent :=
  if 0 < (trim p).length then
    match _parseEventChunk p with
    | some e => [.dataEvt e]
    | none => []
  else []

/-- `_onStreamProgress(e)`: a no-op when `this.xhr` is null; a failure when
the status is not 200; otherwise on the first notification
(`readyState = CONNECTING`) dispatch `open` and move to `OPEN`, then extract
the delta from the cumulative response text, split `chunk + data` on the
record delimiters, dispatch every part but the last and keep the last part
as the new `chunk`. -/
def _onStreamProgress (st : SSEState) (status : Nat) (responseText : Str) :
    SSEState × List OutEvent :=
  if st.xhrAlive = false then (st, [])
  else if status ≠ 200 then _onStreamFailure st responseText
  else
    let p1 : SSEState × List OutEvent :=
      if st.readyState = CONNECTING then
        let p := _setReadyState st OPEN
        (p.1, .openEvt :: p.2)
      else (st, [])
    let st1 := p1.1
    let data := responseText.drop st1.progress
    let st2 := { st1 with progress := st1.progress + data.length }
    let parts := splitRecords (st2.chunk ++ data)
    let lastPart := parts.getLastD []
    let tr2 := parts.dropLast.flatMap partEvents
    ({ st2 with chunk := lastPart }, p1.2 ++ tr2)

/-- `_onStreamLoaded(e)`: run a final `_onStreamProgress`, then parse and
dispatch the pending `chunk` and clear it. -/
def _onStreamLoaded (st : SSEState) (status : Nat) (responseText : Str) :
    SSEState × List OutEvent :=
  let p := _onStreamProgress st status responseText
  let tr2 : List OutEvent :=
    match _parseEventChunk p.1.chunk with
    | some e => [.dataEvt e]
    | none => []
  ({ p.1 with chunk := [] }, p.2 ++ tr2)

/-- `_checkStreamClosed()`: a no-op when `this.xhr` is null; force `CLOSED`
when the transport reports that the request is done
(`xhr.readyState === XMLHttpRequest.DONE`, i.e. `4`). -/
def _checkStreamClosed (st : SSEState) (xhrReadyState : Nat) :
    SSEState × List OutEvent :=
  if st.xhrAlive = false then (st, [])
  else if xhrReadyState = 4 then _setReadyState st CLOSED
  else (st, [])

/-- `stream()`: a no-op when already connected; otherwise move to
`CONNECTING` and create the transport handle. -/
def stream (st : SSEState) : SSEState × List OutEvent :=
  if st.xhrAlive then (st, [])
  else
    let p := _setReadyState st CONNECTING
    ({ p.1 with xhrAlive := true }, p.2)

/-- Deliver a sequence of cumulative progress notifications with status 200:
`sofar` is the response text already delivered, and each delta in turn
extends it. -/
def runProgressSeq (st : SSEState) (sofar : Str) :
    List Str → SSEState × List OutEvent
  | [] => (st, [])
  | d :: ds =>
    let p := _onStreamProgress st 200 (sofar ++ d)
    let q := runProgressSeq p.1 (sofar ++ d) ds
    (q.1, p.2 ++ q.2)

/-! ## Dispatcher -/

/-- The listener loop of `dispatchEvent`:
`listeners.every(cb => { cb(event); return !event.defaultPrevented; })`.
A callback is identified by a reference `cb : Nat`; `prevents cb` tells
whether invoking it sets `event.defaultPrevented`.  Returns the value of
`every` together with the list of callbacks actually invoked, in order
(`every` stops at the first `false`). -/
def runListeners (prevents : Nat → Bool) : List Nat → Bool → Bool × List Nat
  | [], _ => (true, [])
  | cb :: rest, dp =>
    let dp2 := dp || prevents cb
    if dp2 then (false, [cb])
    else
      let p := runListeners prevents rest dp2
      (p.1, cb :: p.2)

/-- `dispatchEvent(event)`: `true` immediately when the event is absent;
otherwise invoke the primary handler first when one exists (returning
`false` at once if it sets `defaultPrevented`, without running any
listener), then run the registered listeners for the event's type.  Returns
the boolean result together with the listeners invoked, in order. -/
def dispatchEvent (prevents : Nat → Bool) (eventPresent : Bool)
    (handler : Option Nat) (listeners : Option (List Nat)) :
    Bool × List Nat :=
  if eventPresent = false then (true, [])
  else
    let afterHandler : Option (Bool × List Nat) :=
      match handler with
      | some h => if prevents h then some (false, []) else none
      | none => none
    match afterHandler with
    | some r => r
    | none =>
      match listeners with
      | some ls => runListeners prevents ls false
      | none => (true, [])

/-- The listener registry `this.listeners : Record<string, Callback[]>`,
modelled as a map from event type to the optional array of callback
references. -/
def Registry := Str → Option (List Nat)

/-- The empty registry (`{}`). -/
def emptyRegistry : Registry := fun _ => none

/-- `addEventListener(type, listener)`: create the array for `type` when
missing, then push the callback unless an identical reference is already
present. -/
def addEventListener (r : Registry) (t : Str) (cb : Nat) : Registry :=
  let r1 : Registry :=
    if r t = none then fun u => if u = t then some [] else r u else r
  let l := (r1 t).getD []
  if cb ∈ l then r1
  else fun u => if u = t then some (l ++ [cb]) else r1 u

/-- `removeEventListener(type, listener)`: a no-op for an unknown type;
otherwise filter the callback out, deleting the type's entry when the
filtered array is empty. -/
def removeEventListener (r : Registry) (t : Str) (cb : Nat) : Registry :=
  match r t with
  | none => r
  | some l =>
    let filtered := l.filter (fun x => x ≠ cb)
    if filtered = [] then fun u => if u = t then none else r u
    else fun u => if u = t then some filtered else r u

/-- One registry operation. -/
inductive RegOp where
  | add (t : Str) (cb : Nat) : RegOp
  | remove (t : Str) (cb : Nat) : RegOp

/-- Apply a sequence of registry operations. -/
def applyOps (r : Registry) : List RegOp → Registry
  | [] => r
  | .add t cb :: ops => applyOps (addEventListener r t cb) ops
  | .remove t cb :: ops => applyOps (removeEventListener r t cb) ops

/-- The registry invariant: every present listener list is non-empty and
holds no duplicate callback references. -/
def RegWF (r : Registry) : Prop :=
  ∀ t l, r t = some l → l ≠ [] ∧ l.Nodup

/-! ## Properties of the record splitter -/

theorem consHead_ne_nil (c : Char) (l : List Str) : consHead c l ≠ [] := by
  cases l <;> simp [consHead]

theorem splitRecords_ne_nil (s : Str) : splitRecords s ≠ [] := by
  induction s using splitRecords.induct <;>
    simp_all [splitRecords, consHead_ne_nil]

theorem matchDelim_some (s d r : Str) (h : matchDelim s = some (d, r)) :
    s = d ++ r ∧ (d = delimCRLF2 ∨ d = delimCR2 ∨ d = delimLF2) := by
  unfold matchDelim at h
  split at h
  · rw [Option.some.injEq, Prod.mk.injEq] at h
    obtain ⟨hd, hr⟩ := h
    subst hd; subst hr
    exact ⟨rfl, Or.inl rfl⟩
  · rw [Option.some.injEq, Prod.mk.injEq] at h
    obtain ⟨hd, hr⟩ := h
    subst hd; subst hr
    exact ⟨rfl, Or.inr (Or.inl rfl)⟩
  · rw [Option.some.injEq, Prod.mk.injEq] at h
    obtain ⟨hd, hr⟩ := h
    subst hd; subst hr
    exact ⟨rfl, Or.inr (Or.inr rfl)⟩
  · simp at h

theorem matchDelim_append (s d r b : Str) (h : matchDelim s = some (d, r)) :
    matchDelim (s ++ b) = some (d, r ++ b) := by
  unfold matchDelim at h
  split at h
  · rw [Option.some.injEq, Prod.mk.injEq] at h
    obtain ⟨hd, hr⟩ := h
    subst hd; subst hr
    simp [matchDelim]
  · rw [Option.some.injEq, Prod.mk.injEq] at h
    obtain ⟨hd, hr⟩ := h
    subst hd; subst hr
    simp [matchDelim]
  · rw [Option.some.injEq, Prod.mk.injEq] at h
    obtain ⟨hd, hr⟩ := h
    subst hd; subst hr
    simp [matchDelim]
  · simp at h

theorem splitRecords_of_matchDelim_some (s d r : Str)
    (h : matchDelim s = some (d, r)) :
    splitRecords s = [] :: d :: splitRecords r := by
  unfold matchDelim at h
  split at h
  · rw [Option.some.injEq, Prod.mk.injEq] at h
    obtain ⟨hd, hr⟩ := h
    subst hd; subst hr
    simp [splitRecords]
  · rw [Option.some.injEq, Prod.mk.injEq] at h
    obtain ⟨hd, hr⟩ := h
    subst hd; subst hr
    simp [splitRecords]
  · rw [Option.some.injEq, Prod.mk.injEq] at h
    obtain ⟨hd, hr⟩ := h
    subst hd; subst hr
    simp [splitRecords]
  · simp at h

theorem matchDelim_none_shape (c : Char) (rest : Str)
    (h : matchDelim (c :: rest) = none) :
    (∀ r, c = '\r' → rest = '\n' :: '\r' :: '\n' :: r → False) ∧
    (∀ r, c = '\r' → rest = '\r' :: r → False) ∧
    (∀ r, c = '\n' → rest = '\n' :: r → False) := by
  refine ⟨?_, ?_, ?_⟩ <;> rintro r rfl rfl <;> simp [matchDelim] at h

theorem splitRecords_of_matchDelim_none (c : Char) (rest : Str)
    (h : matchDelim (c :: rest) = none) :
    splitRecords (c :: rest) = consHead c (splitRecords rest) := by
  obtain ⟨hA, hB, hC⟩ := matchDelim_none_shape c rest h
  exact splitRecords.eq_5 c rest hA hB hC

theorem splitRecords_eq_singleton (s : Str) :
    ∀ t, splitRecords s = [t] → t = s := by
  induction s using splitRecords.induct with
  | case1 => intro t h; simpa [splitRecords] using h.symm
  | case2 rest ih =>
    intro t h
    rw [splitRecords.eq_2] at h
    simp at h
  | case3 rest ih =>
    intro t h
    rw [splitRecords.eq_3] at h
    simp at h
  | case4 rest ih =>
    intro t h
    rw [splitRecords.eq_4] at h
    simp at h
  | case5 c rest h1 h2 h3 ih =>
    intro t h
    rw [splitRecords.eq_5 c rest h1 h2 h3] at h
    rcases hr : splitRecords rest with _ | ⟨s0, ss⟩
    · exact absurd hr (splitRecords_ne_nil rest)
    · rw [hr] at h
      simp [consHead] at h
      obtain ⟨ht, hss⟩ := h
      subst ht
      rw [hss] at hr
      rw [ih s0 hr]

theorem matchDelim_none_of_shape (c : Char) (rest : Str)
    (h1 : ∀ r, c = '\r' → rest = '\n' :: '\r' :: '\n' :: r → False)
    (h2 : ∀ r, c = '\r' → rest = '\r' :: r → False)
    (h3 : ∀ r, c = '\n' → rest = '\n' :: r → False) :
    matchDelim (c :: rest) = none := by
  apply matchDelim.eq_4 <;> rintro r heq <;> injection heq with e1 e2
  · exact h1 r e1 e2
  · exact h2 r e1 e2
  · exact h3 r e1 e2

theorem splitRecords_decomp (s : Str) :
    ∃ Y t, splitRecords s = Y ++ [t] := by
  rcases h : splitRecords s with _ | ⟨x, xs⟩
  · exact absurd h (splitRecords_ne_nil s)
  · exact ⟨(x :: xs).dropLast, (x :: xs).getLast (by simp),
      by rw [List.dropLast_append_getLast]⟩

theorem concat_inj_str (Y Z : List Str) (t u : Str) (h : Y ++ [t] = Z ++ [u]) :
    Y = Z ∧ t = u := by
  have h2 := List.append_inj' h (by simp)
  simpa using h2

theorem matchDelim_none_extend (s b d r : Str) (hn : matchDelim s = none)
    (hs : matchDelim (s ++ b) = some (d, r)) : splitRecords s = [s] := by
  obtain ⟨heq, hd⟩ := matchDelim_some _ _ _ hs
  rcases List.append_eq_append_iff.mp heq with ⟨a2, hda, hba⟩ | ⟨c2, hsc, hrc⟩
  · rcases hd with rfl | rfl | rfl <;>
      rcases s with _ | ⟨x1, _ | ⟨x2, _ | ⟨x3, _ | ⟨x4, s5⟩⟩⟩⟩ <;>
      simp_all [matchDelim, delimCRLF2, delimCR2, delimLF2] <;>
      (try subst hda) <;> decide
  · rcases hd with rfl | rfl | rfl <;> subst hsc <;>
      simp [matchDelim, delimCRLF2, delimCR2, delimLF2] at hn

theorem splitRecords_append (a : Str) :
    ∀ b Y t, splitRecords a = Y ++ [t] →
      splitRecords (a ++ b) = Y ++ splitRecords (t ++ b) := by
  induction a using splitRecords.induct with
  | case1 =>
    intro b Y t h
    rw [splitRecords.eq_1] at h
    have h2 : ([] : List Str) ++ [([] : Str)] = Y ++ [t] := by simpa using h
    obtain ⟨hY, ht⟩ := concat_inj_str _ _ _ _ h2
    rw [← hY, ← ht]
    simp
  | case2 rest ih =>
    intro b Y t h
    rw [splitRecords.eq_2] at h
    obtain ⟨Y2, t2, hYt2⟩ := splitRecords_decomp rest
    rw [hYt2] at h
    have hsh : ([] : Str) :: delimCRLF2 :: (Y2 ++ [t2]) =
        ([] :: delimCRLF2 :: Y2) ++ [t2] := by simp
    rw [hsh] at h
    obtain ⟨hY, ht⟩ := concat_inj_str _ _ _ _ h
    subst hY; subst ht
    have hstep : (('\r' :: '\n' :: '\r' :: '\n' :: rest) : Str) ++ b =
        '\r' :: '\n' :: '\r' :: '\n' :: (rest ++ b) := by simp
    rw [hstep, splitRecords.eq_2, ih b Y2 t2 hYt2]
    simp
  | case3 rest ih =>
    intro b Y t h
    rw [splitRecords.eq_3] at h
    obtain ⟨Y2, t2, hYt2⟩ := splitRecords_decomp rest
    rw [hYt2] at h
    have hsh : ([] : Str) :: delimCR2 :: (Y2 ++ [t2]) =
        ([] :: delimCR2 :: Y2) ++ [t2] := by simp
    rw [hsh] at h
    obtain ⟨hY, ht⟩ := concat_inj_str _ _ _ _ h
    subst hY; subst ht
    have hstep : (('\r' :: '\r' :: rest) : Str) ++ b =
        '\r' :: '\r' :: (rest ++ b) := by simp
    rw [hstep, splitRecords.eq_3, ih b Y2 t2 hYt2]
    simp
  | case4 rest ih =>
    intro b Y t h
    rw [splitRecords.eq_4] at h
    obtain ⟨Y2, t2, hYt2⟩ := splitRecords_decomp rest
    rw [hYt2] at h
    have hsh : ([] : Str) :: delimLF2 :: (Y2 ++ [t2]) =
        ([] :: delimLF2 :: Y2) ++ [t2] := by simp
    rw [hsh] at h
    obtain ⟨hY, ht⟩ := concat_inj_str _ _ _ _ h
    subst hY; subst ht
    have hstep : (('\n' :: '\n' :: rest) : Str) ++ b =
        '\n' :: '\n' :: (rest ++ b) := by simp
    rw [hstep, splitRecords.eq_4, ih b Y2 t2 hYt2]
    simp
  | case5 c rest h1 h2 h3 ih =>
    intro b Y t h
    have hnd : matchDelim (c :: rest) = none :=
      matchDelim_none_of_shape c rest h1 h2 h3
    rw [splitRecords.eq_5 c rest h1 h2 h3] at h
    obtain ⟨Y2, t2, hYt2⟩ := splitRecords_decomp rest
    rcases Y2 with _ | ⟨y0, Y3⟩
    · -- the split of `rest` is a single segment, so `rest` is delimiter-free
      have ht2 : t2 = rest := splitRecords_eq_singleton rest t2 (by simpa using hYt2)
      rw [hYt2, ht2] at h
      have h4 : ([] : List Str) ++ [c :: rest] = Y ++ [t] := by
        simpa [consHead] using h
      obtain ⟨hY, ht⟩ := concat_inj_str _ _ _ _ h4
      rw [← hY, ← ht]
      simp
    · -- the split of `rest` has at least two parts
      rw [hYt2] at h
      simp only [consHead, List.cons_append] at h
      have hsh : ((c :: y0) : Str) :: (Y3 ++ [t2]) = ((c :: y0) :: Y3) ++ [t2] := by
        simp
      rw [hsh] at h
      obtain ⟨hY, ht⟩ := concat_inj_str _ _ _ _ h
      subst hY; subst ht
      have hstep : ((c :: rest) : Str) ++ b = c :: (rest ++ b) := by simp
      rcases hm : matchDelim (c :: (rest ++ b)) with _ | ⟨d, r⟩
      · rw [hstep, splitRecords_of_matchDelim_none c (rest ++ b) hm,
          ih b (y0 :: Y3) t2 hYt2]
        simp [consHead]
      · exfalso
        have hsingle : splitRecords (c :: rest) = [c :: rest] :=
          matchDelim_none_extend (c :: rest) b d r hnd (by rw [hstep]; exact hm)
        rw [splitRecords.eq_5 c rest h1 h2 h3, hYt2] at hsingle
        simp [consHead] at hsingle

theorem splitRecords_last_free (s : Str) :
    ∀ Y t, splitRecords s = Y ++ [t] → splitRecords t = [t] := by
  induction s using splitRecords.induct with
  | case1 =>
    intro Y t h
    rw [splitRecords.eq_1] at h
    have h2 : ([] : List Str) ++ [([] : Str)] = Y ++ [t] := by simpa using h
    obtain ⟨hY, ht⟩ := concat_inj_str _ _ _ _ h2
    rw [← ht]
    simp [splitRecords]
  | case2 rest ih =>
    intro Y t h
    rw [splitRecords.eq_2] at h
    obtain ⟨Y2, t2, hYt2⟩ := splitRecords_decomp rest
    rw [hYt2] at h
    have hsh : ([] : Str) :: delimCRLF2 :: (Y2 ++ [t2]) =
        ([] :: delimCRLF2 :: Y2) ++ [t2] := by simp
    rw [hsh] at h
    obtain ⟨hY, ht⟩ := concat_inj_str _ _ _ _ h
    rw [← ht]
    exact ih Y2 t2 hYt2
  | case3 rest ih =>
    intro Y t h
    rw [splitRecords.eq_3] at h
    obtain ⟨Y2, t2, hYt2⟩ := splitRecords_decomp rest
    rw [hYt2] at h
    have hsh : ([] : Str) :: delimCR2 :: (Y2 ++ [t2]) =
        ([] :: delimCR2 :: Y2) ++ [t2] := by simp
    rw [hsh] at h
    obtain ⟨hY, ht⟩ := concat_inj_str _ _ _ _ h
    rw [← ht]
    exact ih Y2 t2 hYt2
  | case4 rest ih =>
    intro Y t h
    rw [splitRecords.eq_4] at h
    obtain ⟨Y2, t2, hYt2⟩ := splitRecords_decomp rest
    rw [hYt2] at h
    have hsh : ([] : Str) :: delimLF2 :: (Y2 ++ [t2]) =
        ([] :: delimLF2 :: Y2) ++ [t2] := by simp
    rw [hsh] at h
    obtain ⟨hY, ht⟩ := concat_inj_str _ _ _ _ h
    rw [← ht]
    exact ih Y2 t2 hYt2
  | case5 c rest h1 h2 h3 ih =>
    intro Y t h
    rw [splitRecords.eq_5 c rest h1 h2 h3] at h
    obtain ⟨Y2, t2, hYt2⟩ := splitRecords_decomp rest
    rcases Y2 with _ | ⟨y0, Y3⟩
    · have ht2 : t2 = rest := splitRecords_eq_singleton rest t2 (by simpa using hYt2)
      rw [hYt2, ht2] at h
      have h4 : ([] : List Str) ++ [c :: rest] = Y ++ [t] := by
        simpa [consHead] using h
      obtain ⟨hY, ht⟩ := concat_inj_str _ _ _ _ h4
      rw [← ht]
      rw [splitRecords.eq_5 c rest h1 h2 h3, hYt2, ht2]
      simp [consHead]
    · rw [hYt2] at h
      simp only [consHead, List.cons_append] at h
      have hsh : ((c :: y0) : Str) :: (Y3 ++ [t2]) = ((c :: y0) :: Y3) ++ [t2] := by
        simp
      rw [hsh] at h
      obtain ⟨hY, ht⟩ := concat_inj_str _ _ _ _ h
      rw [← ht]
      exact ih (y0 :: Y3) t2 hYt2

/-! ## Properties of the stream progress handler -/

theorem dataEvents_append (t1 t2 : List OutEvent) :
    dataEvents (t1 ++ t2) = dataEvents t1 ++ dataEvents t2 :=
  List.filter_append _ _

theorem dataEvents_partEvents (p : Str) : dataEvents (partEvents p) = partEvents p := by
  unfold partEvents
  split
  · rcases _parseEventChunk p with _ | e <;> simp [dataEvents, isDataEvt]
  · simp [dataEvents]

theorem dataEvents_flatMap (P : List Str) :
    dataEvents (P.flatMap partEvents) = P.flatMap partEvents := by
  induction P with
  | nil => simp [dataEvents]
  | cons p ps ih =>
    rw [List.flatMap_cons, dataEvents_append, dataEvents_partEvents, ih]

theorem parseEventChunk_of_ne_nil (c : Str) (h : c ≠ []) :
    _parseEventChunk c =
      some { type := match ((splitLines c).foldl processLine {}).event with
                     | none => "message".toList
                     | some e => if e = [] then "message".toList else e
             data := ((splitLines c).foldl processLine {}).data.getD []
             id := ((splitLines c).foldl processLine {}).id } := by
  unfold _parseEventChunk
  rw [if_neg h]

theorem onStreamProgress_ok (st : SSEState) (total : Str) (hx : st.xhrAlive = true) :
    _onStreamProgress st 200 total =
      ({ readyState := if st.readyState = CONNECTING then OPEN else st.readyState,
         progress := st.progress + (total.drop st.progress).length,
         chunk := (splitRecords (st.chunk ++ total.drop st.progress)).getLastD [],
         xhrAlive := true },
       (if st.readyState = CONNECTING then [OutEvent.openEvt, OutEvent.rsc OPEN]
        else []) ++
         (splitRecords (st.chunk ++ total.drop st.progress)).dropLast.flatMap
           partEvents) := by
  unfold _onStreamProgress
  rw [hx]
  by_cases hrs : st.readyState = CONNECTING <;>
    simp [hrs, _setReadyState, hx]

theorem runProgressSeq_spec (deltas : List Str) :
    ∀ (st : SSEState) (sofar : Str),
      st.xhrAlive = true →
      st.progress = sofar.length →
      splitRecords st.chunk = [st.chunk] →
      ∃ P : List Str,
        splitRecords (st.chunk ++ deltas.flatten) =
          P ++ [(runProgressSeq st sofar deltas).1.chunk] ∧
        dataEvents (runProgressSeq st sofar deltas).2 = P.flatMap partEvents ∧
        (runProgressSeq st sofar deltas).1.xhrAlive = true ∧
        (runProgressSeq st sofar deltas).1.progress =
          sofar.length + deltas.flatten.length ∧
        splitRecords (runProgressSeq st sofar deltas).1.chunk =
          [(runProgressSeq st sofar deltas).1.chunk] := by
  induction deltas with
  | nil =>
    intro st sofar hx hp hfree
    exact ⟨[], by simpa [runProgressSeq] using hfree,
      by simp [runProgressSeq, dataEvents], by simpa [runProgressSeq] using hx,
      by simpa [runProgressSeq] using hp,
      by simpa [runProgressSeq] using hfree⟩
  | cons d ds ih =>
    intro st sofar hx hp hfree
    have hdata : (sofar ++ d).drop st.progress = d := by
      rw [hp]; exact List.drop_left sofar d
    have hok := onStreamProgress_ok st (sofar ++ d) hx
    rw [hdata] at hok
    obtain ⟨P1, t1, hP1⟩ := splitRecords_decomp (st.chunk ++ d)
    have hmidchunk : (splitRecords (st.chunk ++ d)).getLastD [] = t1 := by
      rw [hP1]; exact List.getLastD_concat _ _ _
    have hmiddrop : (splitRecords (st.chunk ++ d)).dropLast = P1 := by
      rw [hP1]; exact List.dropLast_concat
    rw [hmidchunk, hmiddrop] at hok
    obtain ⟨P2, hs2, hd2, hx2, hp2, hf2⟩ :=
      ih { readyState := if st.readyState = CONNECTING then OPEN else st.readyState,
           progress := st.progress + d.length,
           chunk := t1, xhrAlive := true }
        (sofar ++ d) rfl (by simp [hp]) (splitRecords_last_free _ P1 t1 hP1)
    refine ⟨P1 ++ P2, ?_, ?_, ?_, ?_, ?_⟩
    · have hassoc : st.chunk ++ (d :: ds).flatten = (st.chunk ++ d) ++ ds.flatten := by
        simp [List.flatten_cons]
      rw [hassoc, splitRecords_append (st.chunk ++ d) ds.flatten P1 t1 hP1]
      simp only [runProgressSeq, hok]
      rw [hs2]
      simp
    · simp only [runProgressSeq, hok]
      rw [dataEvents_append, dataEvents_append, dataEvents_flatMap, hd2]
      have hopen : dataEvents
          (if st.readyState = CONNECTING then [OutEvent.openEvt, OutEvent.rsc OPEN]
           else []) = [] := by
        by_cases hrs : st.readyState = CONNECTING <;>
          simp [hrs, dataEvents, isDataEvt]
      rw [hopen]
      simp
    · simp only [runProgressSeq, hok]
      exact hx2
    · simp only [runProgressSeq, hok]
      rw [hp2]
      simp [List.flatten_cons]
      omega
    · simp only [runProgressSeq, hok]
      exact hf2

theorem partEvents_of_trim_ne (r : Str) (h : trim r ≠ []) :
    ∃ e, partEvents r = [OutEvent.dataEvt e] := by
  have hr : r ≠ [] := by
    intro h0
    rw [h0] at h
    exact h rfl
  unfold partEvents
  rw [if_pos (by simpa [List.length_pos] using h)]
  rw [parseEventChunk_of_ne_nil r hr]
  exact ⟨_, rfl⟩

theorem partEvents_delim (dl : Str)
    (h : dl = delimCRLF2 ∨ dl = delimCR2 ∨ dl = delimLF2) : partEvents dl = [] := by
  rcases h with rfl | rfl | rfl <;> decide

theorem length_flatMap_partEvents (recs : List (Str × Str))
    (hrec : ∀ p ∈ recs, trim p.1 ≠ [])
    (hdel : ∀ p ∈ recs, p.2 = delimCRLF2 ∨ p.2 = delimCR2 ∨ p.2 = delimLF2) :
    ((recs.flatMap (fun p => [p.1, p.2])).flatMap partEvents).length = recs.length := by
  induction recs with
  | nil => simp
  | cons p ps ih =>
    obtain ⟨e, he⟩ := partEvents_of_trim_ne p.1 (hrec p (by simp))
    have hd := partEvents_delim p.2 (hdel p (by simp))
    have hih := ih (fun q hq => hrec q (by simp [hq])) (fun q hq => hdel q (by simp [hq]))
    simp only [List.flatMap_cons, List.flatMap_append, List.flatMap_nil, he, hd,
      List.append_nil, List.nil_append, List.length_append, List.length_cons]
    rw [hih]
    simp only [List.length_nil, List.length_cons]
    omega

theorem dataEvents_openTrace (b : Prop) [Decidable b] :
    dataEvents (if b then [OutEvent.openEvt, OutEvent.rsc OPEN] else []) = [] := by
  by_cases hb : b <;> simp [hb, dataEvents, isDataEvt]

theorem onStreamLoaded_final (st : SSEState) (T : Str) (hx : st.xhrAlive = true)
    (hp : st.progress = T.length) (hfree : splitRecords st.chunk = [st.chunk])
    (hne : st.chunk ≠ []) :
    (dataEvents (_onStreamLoaded st 200 T).2).length = 1 := by
  have hok := onStreamProgress_ok st T hx
  have hdata : T.drop st.progress = [] := by rw [hp]; exact List.drop_length T
  rw [hdata, List.append_nil, hfree] at hok
  unfold _onStreamLoaded
  rw [hok]
  simp [parseEventChunk_of_ne_nil st.chunk hne, dataEvents_append,
    dataEvents_openTrace, dataEvents, isDataEvt]
  intro a _ ha
  rcases ha with rfl | rfl <;> rfl

/-! ## Properties of the line splitter and field parser -/

theorem splitLines_ne_nil (s : Str) : splitLines s ≠ [] := by
  induction s using splitLines.induct <;>
    simp_all [splitLines, consHead_ne_nil]

theorem splitLines_cons_of_ne (c : Char) (rest : Str) (h1 : c ≠ '\n')
    (h2 : c ≠ '\r') :
    splitLines (c :: rest) = consHead c (splitLines rest) :=
  splitLines.eq_5 c rest (fun h => h1 h) (fun _ h _ => h2 h) (fun h => h2 h)

theorem mem_of_mem_splitLines (s : Str) :
    ∀ l ∈ splitLines s, ∀ c ∈ l, c ∈ s := by
  induction s using splitLines.induct with
  | case1 =>
    intro l hl c hc
    rw [splitLines.eq_1] at hl
    simp at hl
    rw [hl] at hc
    simp at hc
  | case2 rest ih =>
    intro l hl c hc
    rw [splitLines.eq_2, List.mem_cons] at hl
    rcases hl with rfl | hl
    · simp at hc
    · exact List.mem_cons_of_mem _ (ih l hl c hc)
  | case3 rest ih =>
    intro l hl c hc
    rw [splitLines.eq_3, List.mem_cons] at hl
    rcases hl with rfl | hl
    · simp at hc
    · exact List.mem_cons_of_mem _ (List.mem_cons_of_mem _ (ih l hl c hc))
  | case4 rest h0 ih =>
    intro l hl c hc
    rw [splitLines.eq_4 rest h0, List.mem_cons] at hl
    rcases hl with rfl | hl
    · simp at hc
    · exact List.mem_cons_of_mem _ (ih l hl c hc)
  | case5 c0 rest h1 h2 h3 ih =>
    intro l hl c hc
    rw [splitLines.eq_5 c0 rest h1 h2 h3] at hl
    rcases hsp : splitLines rest with _ | ⟨l0, ls⟩
    · exact absurd hsp (splitLines_ne_nil rest)
    · rw [hsp] at hl
      simp only [consHead] at hl
      rw [List.mem_cons] at hl
      rcases hl with rfl | hl
      · rw [List.mem_cons] at hc
        rcases hc with rfl | hc
        · exact List.mem_cons_self _ _
        · exact List.mem_cons_of_mem _
            (ih l0 (by rw [hsp]; exact List.mem_cons_self _ _) c hc)
      · exact List.mem_cons_of_mem _
          (ih l (by rw [hsp]; exact List.mem_cons_of_mem _ hl) c hc)

theorem idxOfColon_no_colon (line : Str) (h : ':' ∉ line) :
    idxOfColon line = -1 := by
  induction line with
  | nil => rfl
  | cons c rest ih =>
    simp only [List.mem_cons, not_or] at h
    unfold idxOfColon
    rw [if_neg (fun hc => h.1 (by rw [hc]))]
    rw [ih h.2]
    simp

theorem parseFieldLine_no_colon (line : Str) (h : ':' ∉ line) :
    parseFieldLine line = some (line, []) := by
  unfold parseFieldLine
  rw [idxOfColon_no_colon line h]
  norm_num

theorem idxOfColon_append (name : Str) (rest : Str) (h : ':' ∉ name) :
    idxOfColon (name ++ ':' :: rest) = name.length := by
  induction name with
  | nil => simp [idxOfColon]
  | cons c name2 ih =>
    simp only [List.mem_cons, not_or] at h
    rw [List.cons_append]
    unfold idxOfColon
    rw [if_neg (fun hc => h.1 (by rw [hc]))]
    rw [ih h.2]
    have hge : (0 : Int) ≤ (name2.length : Int) := by positivity
    rw [if_neg (by omega)]
    simp

theorem parseFieldLine_field (name v : Str) (hc : ':' ∉ name) (hne : name ≠ []) :
    parseFieldLine (name ++ ':' :: ' ' :: v) = some (name, v) := by
  unfold parseFieldLine
  rw [idxOfColon_append name (' ' :: v) hc]
  have hpos : (0 : Int) < (name.length : Int) := by
    have : 0 < name.length := List.length_pos.mpr hne
    exact_mod_cast this
  rw [if_pos hpos]
  have htn : ((name.length : Int)).toNat = name.length := Int.toNat_natCast _
  rw [htn]
  have hdrop : (name ++ ':' :: ' ' :: v).drop (name.length + 1) = ' ' :: v := by
    simp
  simp only [htn, hdrop, List.take_left, List.head?_cons, List.tail_cons]
  simp

theorem parseFieldLine_dataLine (v : Str) :
    parseFieldLine (dataLine v) = some ("data".toList, v) :=
  parseFieldLine_field "data".toList v (by decide) (by decide)

theorem parseFieldLine_idLine (v : Str) :
    parseFieldLine (idLine v) = some ("id".toList, v) :=
  parseFieldLine_field "id".toList v (by decide) (by decide)

theorem parseFieldLine_eventLine (v : Str) :
    parseFieldLine (eventLine v) = some ("event".toList, v) :=
  parseFieldLine_field "event".toList v (by decide) (by decide)

theorem parseFieldLine_retryLine (v : Str) :
    parseFieldLine (retryLine v) = some ("retry".toList, v) :=
  parseFieldLine_field "retry".toList v (by decide) (by decide)

theorem processLine_dataLine (f : EventFields) (v : Str) :
    processLine f (dataLine v) =
      { f with data := some (match f.data with
                             | none => v
                             | some d => d ++ '\n' :: v) } := by
  unfold processLine
  rw [parseFieldLine_dataLine]
  rcases hd : f.data with _ | d
  · simp [recognizedFields, hd]
  · simp [recognizedFields, hd]

theorem processLine_dataLine_none (f : EventFields) (v : Str)
    (h : f.data = none) :
    processLine f (dataLine v) = { f with data := some v } := by
  rw [processLine_dataLine, h]

theorem processLine_idLine (f : EventFields) (v : Str) :
    processLine f (idLine v) = { f with id := some v } := by
  unfold processLine
  rw [parseFieldLine_idLine]
  simp [recognizedFields]

theorem processLine_eventLine (f : EventFields) (v : Str) :
    processLine f (eventLine v) = { f with event := some v } := by
  unfold processLine
  rw [parseFieldLine_eventLine]
  simp [recognizedFields]

theorem processLine_retryLine (f : EventFields) (v : Str) :
    processLine f (retryLine v) = { f with retry := some v } := by
  unfold processLine
  rw [parseFieldLine_retryLine]
  simp [recognizedFields]

theorem processLine_ignored (f : EventFields) (l : Str)
    (h : lineIgnored l = true) : processLine f l = f := by
  unfold lineIgnored at h
  unfold processLine
  rcases hp : parseFieldLine l with _ | ⟨fa, fb⟩
  · rfl
  · rw [hp] at h
    simp only [decide_eq_true_eq] at h
    simp [h]

theorem foldl_processLine_ignored (L : List Str) :
    ∀ f : EventFields, (∀ l ∈ L, lineIgnored l = true) →
      L.foldl processLine f = f := by
  induction L with
  | nil => intro f _; rfl
  | cons l L2 ih =>
    intro f h
    rw [List.foldl_cons, processLine_ignored f l (h l (by simp))]
    exact ih f (fun l2 hl2 => h l2 (by simp [hl2]))

theorem lineIgnored_of_ws (l : Str) (h : ∀ ch ∈ l, isWS ch = true) :
    lineIgnored l = true := by
  have hcolon : ':' ∉ l := fun hc => by
    have := h ':' hc
    exact absurd this (by decide)
  unfold lineIgnored
  rw [parseFieldLine_no_colon l hcolon]
  simp only [decide_eq_true_eq]
  intro hmem
  simp only [recognizedFields, List.mem_cons, List.not_mem_nil, or_false] at hmem
  rcases hmem with h4 | h4 | h4 | h4
  · rw [h4] at h; exact absurd (h 'i' (by decide)) (by decide)
  · rw [h4] at h; exact absurd (h 'r' (by decide)) (by decide)
  · rw [h4] at h; exact absurd (h 'd' (by decide)) (by decide)
  · rw [h4] at h; exact absurd (h 'e' (by decide)) (by decide)

theorem parse_ws_only (c : Str) (hne : c ≠ []) (hws : ∀ ch ∈ c, isWS ch = true) :
    _parseEventChunk c =
      some { type := "message".toList, data := [], id := none } := by
  rw [parseEventChunk_of_ne_nil c hne]
  rw [foldl_processLine_ignored (splitLines c) {}
    (fun l hl => lineIgnored_of_ws l
      (fun ch hc => hws ch (mem_of_mem_splitLines c l hl ch hc)))]
  rfl

/-! ## Line joining and the field folds -/

theorem splitLines_nlFree (l : Str) (h : nlFree l) : splitLines l = [l] := by
  induction l with
  | nil => rfl
  | cons c rest ih =>
    have hc := h c (by simp)
    rw [splitLines_cons_of_ne c rest hc.1 hc.2]
    rw [ih (fun ch hch => h ch (by simp [hch]))]
    rfl

theorem splitLines_append_nl (v : Str) (R : Str) (h : nlFree v) :
    splitLines (v ++ '\n' :: R) = v :: splitLines R := by
  induction v with
  | nil => simp [splitLines]
  | cons c v2 ih =>
    have hc := h c (by simp)
    rw [List.cons_append, splitLines_cons_of_ne c _ hc.1 hc.2]
    rw [ih (fun ch hch => h ch (by simp [hch]))]
    rfl

theorem splitLines_joinNL (ls : List Str) :
    ls ≠ [] → (∀ l ∈ ls, nlFree l) → splitLines (joinNL ls) = ls := by
  induction ls with
  | nil => intro h _; exact absurd rfl h
  | cons v vs ih =>
    intro _ h
    rcases vs with _ | ⟨v2, vs2⟩
    · exact splitLines_nlFree v (h v (by simp))
    · rw [show joinNL (v :: v2 :: vs2) = v ++ '\n' :: joinNL (v2 :: vs2) from rfl]
      rw [splitLines_append_nl v _ (h v (by simp))]
      rw [ih (by simp) (fun l hl => h l (by simp [hl]))]

theorem joinNL_cons_flatMap (v0 : Str) (vs : List Str) :
    joinNL (v0 :: vs) = v0 ++ vs.flatMap (fun v => '\n' :: v) := by
  induction vs generalizing v0 with
  | nil => simp [joinNL]
  | cons v1 vs2 ih =>
    rw [show joinNL (v0 :: v1 :: vs2) = v0 ++ '\n' :: joinNL (v1 :: vs2) from rfl]
    rw [ih v1]
    simp

theorem nlFree_prefixed (pre : Str) (hpre : ∀ ch ∈ pre, ch ≠ '\n' ∧ ch ≠ '\r')
    (v : Str) (h : nlFree v) : nlFree (pre ++ v) := by
  intro ch hch
  rcases List.mem_append.mp hch with hc | hc
  · exact hpre ch hc
  · exact h ch hc

theorem foldl_dataLines_acc (vs : List Str) :
    ∀ (f : EventFields) (d0 : Str), f.data = some d0 →
      (vs.map dataLine).foldl processLine f =
        { f with data := some (d0 ++ vs.flatMap (fun v => '\n' :: v)) } := by
  induction vs with
  | nil =>
    intro f d0 hd
    obtain ⟨fi, fr, fd, fe⟩ := f
    simp only [List.map_nil, List.foldl_nil, List.flatMap_nil, List.append_nil]
    simp_all
  | cons v vs2 ih =>
    intro f d0 hd
    rw [List.map_cons, List.foldl_cons, processLine_dataLine, hd]
    rw [ih { f with data := some (d0 ++ '\n' :: v) } (d0 ++ '\n' :: v) rfl]
    obtain ⟨fi, fr, fd, fe⟩ := f
    simp

theorem foldl_idLines (vs : List Str) :
    ∀ f : EventFields, vs ≠ [] →
      (vs.map idLine).foldl processLine f =
        { f with id := some (vs.getLastD []) } := by
  induction vs with
  | nil => intro f h; exact absurd rfl h
  | cons v vs2 ih =>
    intro f _
    rw [List.map_cons, List.foldl_cons, processLine_idLine]
    rcases vs2 with _ | ⟨v2, vs3⟩
    · simp [List.getLastD_cons]
    · rw [ih _ (by simp)]
      obtain ⟨fi, fr, fd, fe⟩ := f
      simp [List.getLastD_cons]

theorem foldl_eventLines (vs : List Str) :
    ∀ f : EventFields, vs ≠ [] →
      (vs.map eventLine).foldl processLine f =
        { f with event := some (vs.getLastD []) } := by
  induction vs with
  | nil => intro f h; exact absurd rfl h
  | cons v vs2 ih =>
    intro f _
    rw [List.map_cons, List.foldl_cons, processLine_eventLine]
    rcases vs2 with _ | ⟨v2, vs3⟩
    · simp [List.getLastD_cons]
    · rw [ih _ (by simp)]
      obtain ⟨fi, fr, fd, fe⟩ := f
      simp [List.getLastD_cons]

theorem foldl_retryLines (vs : List Str) :
    ∀ f : EventFields, vs ≠ [] →
      (vs.map retryLine).foldl processLine f =
        { f with retry := some (vs.getLastD []) } := by
  induction vs with
  | nil => intro f h; exact absurd rfl h
  | cons v vs2 ih =>
    intro f _
    rw [List.map_cons, List.foldl_cons, processLine_retryLine]
    rcases vs2 with _ | ⟨v2, vs3⟩
    · simp [List.getLastD_cons]
    · rw [ih _ (by simp)]
      obtain ⟨fi, fr, fd, fe⟩ := f
      simp [List.getLastD_cons]

/-! ## Properties of the listener registry and dispatcher -/

theorem RegWF_empty : RegWF emptyRegistry := by
  intro t l h
  simp [emptyRegistry] at h

theorem addEventListener_eq (r : Registry) (t : Str) (cb : Nat) (u : Str) :
    addEventListener r t cb u =
      if u = t then
        some (match r t with
              | none => [cb]
              | some l0 => if cb ∈ l0 then l0 else l0 ++ [cb])
      else r u := by
  unfold addEventListener
  rcases hm : r t with _ | l0
  · simp only [hm, if_pos rfl, Option.getD_some, List.not_mem_nil, if_false]
    by_cases hut : u = t <;> simp [hut]
  · simp only [hm, Option.getD_some, if_neg (by simp : ¬(some l0 = none))]
    by_cases hcb : cb ∈ l0
    · rw [if_pos hcb]
      by_cases hut : u = t <;> simp [hut, hcb, hm]
    · rw [if_neg hcb]
      by_cases hut : u = t <;> simp [hut, hcb]

theorem removeEventListener_eq (r : Registry) (t : Str) (cb : Nat) (u : Str) :
    removeEventListener r t cb u =
      match r t with
      | none => r u
      | some l0 =>
        if u = t then
          (if l0.filter (fun x => x ≠ cb) = [] then none
           else some (l0.filter (fun x => x ≠ cb)))
        else r u := by
  unfold removeEventListener
  rcases hm : r t with _ | l0
  · rfl
  · simp only
    by_cases hfil : l0.filter (fun x => x ≠ cb) = []
    · rw [if_pos hfil, if_pos hfil]
    · rw [if_neg hfil, if_neg hfil]

theorem RegWF_add (r : Registry) (t : Str) (cb : Nat) (h : RegWF r) :
    RegWF (addEventListener r t cb) := by
  intro u l hu
  rw [addEventListener_eq] at hu
  by_cases hut : u = t
  · rw [if_pos hut] at hu
    rcases hm : r t with _ | l0
    · rw [hm] at hu
      simp only [Option.some.injEq] at hu
      rw [← hu]
      exact ⟨by simp, by simp⟩
    · rw [hm] at hu
      simp only [Option.some.injEq] at hu
      obtain ⟨hl0ne, hl0nd⟩ := h t l0 hm
      by_cases hcb : cb ∈ l0
      · rw [if_pos hcb] at hu
        rw [← hu]
        exact ⟨hl0ne, hl0nd⟩
      · rw [if_neg hcb] at hu
        rw [← hu]
        refine ⟨by simp, ?_⟩
        simp [List.nodup_append, hl0nd, hcb]
  · rw [if_neg hut] at hu
    exact h u l hu

theorem RegWF_remove (r : Registry) (t : Str) (cb : Nat) (h : RegWF r) :
    RegWF (removeEventListener r t cb) := by
  intro u l hu
  rw [removeEventListener_eq] at hu
  rcases hm : r t with _ | l0
  · rw [hm] at hu
    exact h u l hu
  · rw [hm] at hu
    simp only at hu
    by_cases hut : u = t
    · rw [if_pos hut] at hu
      by_cases hfil : l0.filter (fun x => x ≠ cb) = []
      · rw [if_pos hfil] at hu
        simp at hu
      · rw [if_neg hfil] at hu
        simp only [Option.some.injEq] at hu
        rw [← hu]
        exact ⟨hfil, List.Nodup.filter _ (h t l0 hm).2⟩
    · rw [if_neg hut] at hu
      exact h u l hu

theorem RegWF_applyOps (ops : List RegOp) :
    ∀ r : Registry, RegWF r → RegWF (applyOps r ops) := by
  induction ops with
  | nil => intro r h; exact h
  | cons op ops2 ih =>
    intro r h
    rcases op with ⟨t, cb⟩ | ⟨t, cb⟩
    · exact ih (addEventListener r t cb) (RegWF_add r t cb h)
    · exact ih (removeEventListener r t cb) (RegWF_remove r t cb h)

theorem addEventListener_self_mem (r : Registry) (t : Str) (cb : Nat) :
    ∃ l, addEventListener r t cb t = some l ∧ cb ∈ l := by
  rw [addEventListener_eq]
  rw [if_pos rfl]
  refine ⟨_, rfl, ?_⟩
  rcases r t with _ | l0
  · simp
  · by_cases hcb : cb ∈ l0 <;> simp [hcb]

theorem addEventListener_idem (r : Registry) (t : Str) (cb : Nat) :
    addEventListener (addEventListener r t cb) t cb = addEventListener r t cb := by
  funext u
  obtain ⟨l, hl, hmem⟩ := addEventListener_self_mem r t cb
  rw [addEventListener_eq (addEventListener r t cb) t cb u, hl]
  by_cases hut : u = t
  · subst hut
    rw [if_pos rfl, hl]
    simp [hmem]
  · rw [if_neg hut]

theorem removeEventListener_deletes (r : Registry) (t : Str) (cb : Nat)
    (h : r t = some [cb]) : removeEventListener r t cb t = none := by
  rw [removeEventListener_eq, h]
  simp

theorem runListeners_spec (prevents : Nat → Bool) (ls : List Nat) :
    runListeners prevents ls false =
      ((ls.all fun cb => !prevents cb), ls.take (ls.findIdx prevents + 1)) := by
  induction ls with
  | nil => rfl
  | cons cb rest ih =>
    unfold runListeners
    by_cases hp : prevents cb
    · simp [hp, List.findIdx_cons]
    · simp only [hp, Bool.false_or, Bool.or_false, if_neg (by simp [hp] : ¬(false || prevents cb) = true)]
      rw [ih]
      simp [hp, List.findIdx_cons]

/-! ## Claims -/

/-- C1 (counterexample): with two listeners registered for the type, none of
which is a primary handler, where the first listener sets
`defaultPrevented`, `dispatchEvent` invokes only the first listener — the
`every` loop short-circuits — so the claim that every registered listener
still runs is false; the second conjunct records that the invoked list is
not the full listener list. -/
theorem C1_counterexample :
    dispatchEvent (fun cb => cb == 0) true none (some [0, 1]) = (false, [0]) ∧
    (dispatchEvent (fun cb => cb == 0) true none (some [0, 1])).2 ≠ [0, 1] := by
  constructor
  · decide
  · decide

/-- C1 (amended): when no primary handler cancels first, `dispatchEvent`
invokes the registered listeners in registration order up to and including
the first listener that sets `defaultPrevented` — later listeners are
skipped — and returns `false` exactly when some invoked listener set
`defaultPrevented`, `true` otherwise. -/
theorem C1_dispatch_short_circuit (prevents : Nat → Bool) (h : Option Nat)
    (ls : List Nat) (hh : ∀ x ∈ h, prevents x = false) :
    dispatchEvent prevents true h (some ls) =
      ((ls.all fun cb => !prevents cb), ls.take (ls.findIdx prevents + 1)) := by
  unfold dispatchEvent
  rcases h with _ | x
  · simp [runListeners_spec]
  · have hx := hh x (by simp)
    simp [hx, runListeners_spec]

/-- C1 (witness): the amended theorem at a concrete input — a benign primary
handler, listeners `[1, 0, 2]` of which `0` cancels: listeners `1` and `0`
run, `2` is skipped, and the result is `false`. -/
theorem C1_dispatch_short_circuit_witness :
    dispatchEvent (fun cb => cb == 0) true (some 5) (some [1, 0, 2]) =
      (false, [1, 0]) := by
  have h := C1_dispatch_short_circuit (fun cb => cb == 0) (some 5) [1, 0, 2]
    (by intro x hx; simp at hx; subst hx; rfl)
  rw [h]
  decide

/-- C2 (counterexample): the whitespace-only record `" "` makes
`_parseEventChunk` return a `"message"` event rather than no event, and the
final parse pass on stream completion (`_onStreamLoaded`) dispatches it. -/
theorem C2_counterexample :
    _parseEventChunk [' '] =
      some { type := "message".toList, data := [], id := none } ∧
    (_onStreamLoaded
        { readyState := OPEN, progress := 1, chunk := [' '], xhrAlive := true }
        200 [' ']).2 =
      [OutEvent.dataEvt { type := "message".toList, data := [], id := none }] := by
  constructor
  · decide
  · decide

/-- C2 (amended): `_parseEventChunk` returns no event exactly for the empty
record; a non-empty whitespace-only record parses to a `"message"` event
with empty data and null id.  During streaming the assembler's trim check
discards whitespace-only parts before parsing, so nothing is dispatched for
them, but the final parse pass on completion has no such guard. -/
theorem C2_empty_vs_whitespace :
    (∀ c : Str, _parseEventChunk c = none ↔ c = []) ∧
    (∀ p : Str, trim p = [] → partEvents p = []) ∧
    (∀ c : Str, c ≠ [] → (∀ ch ∈ c, isWS ch = true) →
      _parseEventChunk c =
        some { type := "message".toList, data := [], id := none }) := by
  refine ⟨?_, ?_, fun c h1 h2 => parse_ws_only c h1 h2⟩
  · intro c
    constructor
    · intro h
      by_contra hne
      rw [parseEventChunk_of_ne_nil c hne] at h
      simp at h
    · intro h
      rw [h]
      rfl
  · intro p hp
    unfold partEvents
    rw [hp]
    simp

/-- C2 (witness): the amended theorem at concrete inputs — the empty record
parses to nothing, a newline part is discarded by the trim check, and the
two-space record parses to a default `"message"` event. -/
theorem C2_empty_vs_whitespace_witness :
    (_parseEventChunk [] = none ↔ ([] : Str) = []) ∧
    partEvents ['\n'] = [] ∧
    _parseEventChunk [' ', ' '] =
      some { type := "message".toList, data := [], id := none } := by
  have h := C2_empty_vs_whitespace
  exact ⟨h.1 [], h.2.1 ['\n'] (by decide), h.2.2 [' ', ' '] (by decide) (by decide)⟩

/-- C3: for a cumulative text whose record split is `N` complete
non-whitespace records, each followed by a blank-line delimiter, and a
non-empty trailing partial record, delivering the text across any monotone
sequence of cumulative fragments (byte-by-byte included) dispatches exactly
`N` parsed events during streaming; the trailing segment is retained as the
pending tail rather than parsed, and stream completion dispatches exactly
one more event. -/
theorem C3_fragmentation_counts (T tail : Str) (recs : List (Str × Str))
    (deltas : List Str)
    (hsplit : splitRecords T = recs.flatMap (fun p => [p.1, p.2]) ++ [tail])
    (hrec : ∀ p ∈ recs, trim p.1 ≠ [])
    (hdel : ∀ p ∈ recs, p.2 = delimCRLF2 ∨ p.2 = delimCR2 ∨ p.2 = delimLF2)
    (htail : tail ≠ [])
    (hdeltas : deltas.flatten = T) :
    (dataEvents (runProgressSeq (stream freshState).1 [] deltas).2).length =
      recs.length ∧
    (runProgressSeq (stream freshState).1 [] deltas).1.chunk = tail ∧
    (dataEvents (_onStreamLoaded
        (runProgressSeq (stream freshState).1 [] deltas).1 200 T).2).length = 1 := by
  obtain ⟨P, hs, hdv, hx, hp, hf⟩ :=
    runProgressSeq_spec deltas (stream freshState).1 [] (by decide) (by decide)
      (by decide)
  have hchunk0 : (stream freshState).1.chunk = [] := by decide
  rw [hchunk0, List.nil_append, hdeltas, hsplit] at hs
  obtain ⟨hP, htl⟩ := concat_inj_str _ _ _ _ hs
  refine ⟨?_, htl.symm, ?_⟩
  · rw [hdv, ← hP]
    exact length_flatMap_partEvents recs hrec hdel
  · rw [hdeltas] at hp
    apply onStreamLoaded_final _ T hx (by simpa using hp) hf
    rw [htl] at htail
    exact htail

/-- C3 (witness): the theorem at a concrete input — two records and a
trailing partial record, delivered as two fragments that split inside the
second record's delimiter: two events while streaming, pending tail `"x"`,
one more event on completion. -/
theorem C3_fragmentation_counts_witness :
    (dataEvents (runProgressSeq (stream freshState).1 []
        ["data: a\n".toList, "\ndata: b\n\nx".toList]).2).length = 2 ∧
    (runProgressSeq (stream freshState).1 []
        ["data: a\n".toList, "\ndata: b\n\nx".toList]).1.chunk = "x".toList ∧
    (dataEvents (_onStreamLoaded (runProgressSeq (stream freshState).1 []
        ["data: a\n".toList, "\ndata: b\n\nx".toList]).1 200
        "data: a\n\ndata: b\n\nx".toList).2).length = 1 := by
  have h := C3_fragmentation_counts "data: a\n\ndata: b\n\nx".toList "x".toList
    [("data: a".toList, delimLF2), ("data: b".toList, delimLF2)]
    ["data: a\n".toList, "\ndata: b\n\nx".toList]
    (by decide) (by decide) (by decide) (by decide) (by decide)
  exact h

/-- C4: on a progress notification with success status while the state is
`CONNECTING`, the state moves to `OPEN` and the dispatch trace begins with
the `"open"` event immediately followed by the `readystatechange` event for
`OPEN`. -/
theorem C4_open_before_rsc (st : SSEState) (txt : Str)
    (hx : st.xhrAlive = true) (hrs : st.readyState = CONNECTING) :
    ((_onStreamProgress st 200 txt).2).take 2 =
      [OutEvent.openEvt, OutEvent.rsc OPEN] ∧
    (_onStreamProgress st 200 txt).1.readyState = OPEN := by
  rw [onStreamProgress_ok st txt hx]
  simp [hrs]

/-- C4 (witness): the theorem at a concrete input — first successful
progress from the fresh `CONNECTING` state. -/
theorem C4_open_before_rsc_witness :
    ((_onStreamProgress
        { readyState := CONNECTING, progress := 0, chunk := [], xhrAlive := true }
        200 "hi".toList).2).take 2 = [OutEvent.openEvt, OutEvent.rsc OPEN] ∧
    (_onStreamProgress
        { readyState := CONNECTING, progress := 0, chunk := [], xhrAlive := true }
        200 "hi".toList).1.readyState = OPEN :=
  C4_open_before_rsc _ _ (by decide) (by decide)

/-- C5: a progress notification with a non-success status dispatches an
`"error"` event whose data is the response text, forces the state to
`CLOSED`, and dispatches no `"open"` event; from `CONNECTING` the trace is
exactly the error event followed by the `readystatechange` for `CLOSED`. -/
theorem C5_nonsuccess_error (st : SSEState) (status : Nat) (txt : Str)
    (hx : st.xhrAlive = true) (hst : status ≠ 200) :
    (_onStreamProgress st status txt).2.head? = some (OutEvent.errorEvt txt) ∧
    (_onStreamProgress st status txt).1.readyState = CLOSED ∧
    OutEvent.openEvt ∉ (_onStreamProgress st status txt).2 ∧
    (st.readyState = CONNECTING →
      (_onStreamProgress st status txt).2 =
        [OutEvent.errorEvt txt, OutEvent.rsc CLOSED]) := by
  have hfail : _onStreamProgress st status txt = _onStreamFailure st txt := by
    unfold _onStreamProgress
    rw [hx]
    simp [hst]
  rw [hfail]
  unfold _onStreamFailure close _setReadyState
  by_cases hc : st.readyState = CLOSED ∨ st.xhrAlive = false
  · rw [if_pos hc]
    rcases hc with hc | hc
    · refine ⟨rfl, hc, by simp, ?_⟩
      intro hco
      rw [hc] at hco
      exact absurd hco (by decide)
    · rw [hc] at hx
      exact absurd hx (by simp)
  · rw [if_neg hc]
    exact ⟨rfl, rfl, by simp, fun _ => rfl⟩

/-- C5 (witness): the theorem at a concrete input — status 500 on the first
progress notification from `CONNECTING`. -/
theorem C5_nonsuccess_error_witness :
    (_onStreamProgress
        { readyState := CONNECTING, progress := 0, chunk := [], xhrAlive := true }
        500 "oops".toList).2 =
      [OutEvent.errorEvt "oops".toList, OutEvent.rsc CLOSED] ∧
    (_onStreamProgress
        { readyState := CONNECTING, progress := 0, chunk := [], xhrAlive := true }
        500 "oops".toList).1.readyState = CLOSED := by
  have h := C5_nonsuccess_error
    { readyState := CONNECTING, progress := 0, chunk := [], xhrAlive := true }
    500 "oops".toList (by decide) (by decide)
  exact ⟨h.2.2.2 (by decide), h.2.1⟩

/-- C6: within one record, repeated `data` lines accumulate — the first
value sets the field, each later value is appended after a `"\n"` — while
`id`, `event` and `retry` keep only their last occurrence; in particular
`"data: hello\ndata: world"` parses to data `"hello\nworld"`. -/
theorem C6_data_accumulates_others_last_win :
    (∀ vs : List Str, vs ≠ [] → (∀ v ∈ vs, nlFree v) →
      _parseEventChunk (joinNL (vs.map dataLine)) =
        some { type := "message".toList, data := joinNL vs, id := none }) ∧
    (∀ vs : List Str, vs ≠ [] → (∀ v ∈ vs, nlFree v) →
      _parseEventChunk (joinNL (vs.map idLine)) =
        some { type := "message".toList, data := [],
               id := some (vs.getLastD []) }) ∧
    (∀ vs : List Str, vs ≠ [] → (∀ v ∈ vs, nlFree v) →
      _parseEventChunk (joinNL (vs.map eventLine)) =
        some { type := if vs.getLastD [] = [] then "message".toList
                       else vs.getLastD [],
               data := [], id := none }) ∧
    (∀ vs : List Str, vs ≠ [] →
      ((vs.map retryLine).foldl processLine {}).retry =
        some (vs.getLastD [])) ∧
    _parseEventChunk "data: hello\ndata: world".toList =
      some { type := "message".toList, data := "hello\nworld".toList,
             id := none } := by
  refine ⟨?_, ?_, ?_, ?_, by decide⟩
  · intro vs hne h
    rcases vs with _ | ⟨v0, vs2⟩
    · exact absurd rfl hne
    · have hnl : ∀ l ∈ (v0 :: vs2).map dataLine, nlFree l := by
        intro l hl
        simp only [List.mem_map] at hl
        obtain ⟨v, hv, rfl⟩ := hl
        exact nlFree_prefixed "data: ".toList (by decide) v (h v hv)
      have hlines := splitLines_joinNL ((v0 :: vs2).map dataLine) (by simp) hnl
      have hne2 : joinNL ((v0 :: vs2).map dataLine) ≠ [] := by
        rw [List.map_cons, joinNL_cons_flatMap]
        simp [dataLine]
      rw [parseEventChunk_of_ne_nil _ hne2, hlines]
      rw [List.map_cons, List.foldl_cons, processLine_dataLine_none {} v0 rfl]
      rw [foldl_dataLines_acc vs2 _ v0 rfl]
      rw [joinNL_cons_flatMap]
      rfl
  · intro vs hne h
    have hnl : ∀ l ∈ vs.map idLine, nlFree l := by
      intro l hl
      simp only [List.mem_map] at hl
      obtain ⟨v, hv, rfl⟩ := hl
      exact nlFree_prefixed "id: ".toList (by decide) v (h v hv)
    rcases vs with _ | ⟨v0, vs2⟩
    · exact absurd rfl hne
    · have hlines := splitLines_joinNL ((v0 :: vs2).map idLine) (by simp) hnl
      have hne2 : joinNL ((v0 :: vs2).map idLine) ≠ [] := by
        rw [List.map_cons, joinNL_cons_flatMap]
        simp [idLine]
      rw [parseEventChunk_of_ne_nil _ hne2, hlines]
      rw [foldl_idLines (v0 :: vs2) {} (by simp)]
      rfl
  · intro vs hne h
    have hnl : ∀ l ∈ vs.map eventLine, nlFree l := by
      intro l hl
      simp only [List.mem_map] at hl
      obtain ⟨v, hv, rfl⟩ := hl
      exact nlFree_prefixed "event: ".toList (by decide) v (h v hv)
    rcases vs with _ | ⟨v0, vs2⟩
    · exact absurd rfl hne
    · have hlines := splitLines_joinNL ((v0 :: vs2).map eventLine) (by simp) hnl
      have hne2 : joinNL ((v0 :: vs2).map eventLine) ≠ [] := by
        rw [List.map_cons, joinNL_cons_flatMap]
        simp [eventLine]
      rw [parseEventChunk_of_ne_nil _ hne2, hlines]
      rw [foldl_eventLines (v0 :: vs2) {} (by simp)]
      rfl
  · intro vs hne
    rw [foldl_retryLines vs {} hne]

/-- C6 (witness): the theorem at concrete inputs — two `data` lines
accumulate, the second `id`, `event` and `retry` values win. -/
theorem C6_data_accumulates_witness :
    _parseEventChunk (joinNL (["hello".toList, "world".toList].map dataLine)) =
      some { type := "message".toList,
             data := joinNL ["hello".toList, "world".toList], id := none } ∧
    _parseEventChunk (joinNL (["1".toList, "2".toList].map idLine)) =
      some { type := "message".toList, data := [], id := some "2".toList } ∧
    _parseEventChunk (joinNL (["a".toList, "b".toList].map eventLine)) =
      some { type := "b".toList, data := [], id := none } ∧
    ((["3".toList, "4".toList].map retryLine).foldl processLine {}).retry =
      some "4".toList := by
  have h := C6_data_accumulates_others_last_win
  refine ⟨h.1 _ (by decide) (by decide), ?_, ?_, ?_⟩
  · exact h.2.1 ["1".toList, "2".toList] (by decide) (by decide)
  · exact h.2.2.1 ["a".toList, "b".toList] (by decide) (by decide)
  · exact h.2.2.2.1 ["3".toList, "4".toList] (by decide)

/-- C7: the constructed event's type is the final `event` value, defaulting
to `"message"` when the field is absent or empty; its data is the
accumulated `data` value, defaulting to empty; its id is the final `id`
value, defaulting to null; and `"id: 5\nevent: update\ndata: hello"` parses
to type `"update"`, id `"5"`, data `"hello"`. -/
theorem C7_event_construction :
    (∀ i e d : Str, nlFree i → nlFree e → nlFree d →
      _parseEventChunk (joinNL [idLine i, eventLine e, dataLine d]) =
        some { type := if e = [] then "message".toList else e,
               data := d, id := some i }) ∧
    (∀ d : Str, nlFree d →
      _parseEventChunk (dataLine d) =
        some { type := "message".toList, data := d, id := none }) ∧
    (∀ i : Str, nlFree i →
      _parseEventChunk (idLine i) =
        some { type := "message".toList, data := [], id := some i }) ∧
    _parseEventChunk "id: 5\nevent: update\ndata: hello".toList =
      some { type := "update".toList, data := "hello".toList,
             id := some "5".toList } := by
  refine ⟨?_, ?_, ?_, by decide⟩
  · intro i e d hi he hd
    have hnl : ∀ l ∈ [idLine i, eventLine e, dataLine d], nlFree l := by
      intro l hl
      simp only [List.mem_cons, List.not_mem_nil, or_false] at hl
      rcases hl with rfl | rfl | rfl
      · exact nlFree_prefixed "id: ".toList (by decide) i hi
      · exact nlFree_prefixed "event: ".toList (by decide) e he
      · exact nlFree_prefixed "data: ".toList (by decide) d hd
    have hlines := splitLines_joinNL [idLine i, eventLine e, dataLine d]
      (by simp) hnl
    have hne2 : joinNL [idLine i, eventLine e, dataLine d] ≠ [] := by
      rw [joinNL_cons_flatMap]
      simp [idLine]
    rw [parseEventChunk_of_ne_nil _ hne2, hlines]
    rw [List.foldl_cons, processLine_idLine, List.foldl_cons, processLine_eventLine,
      List.foldl_cons, processLine_dataLine_none _ d rfl, List.foldl_nil]
    rfl
  · intro d hd
    have hne2 : dataLine d ≠ [] := by simp [dataLine]
    rw [parseEventChunk_of_ne_nil _ hne2,
      splitLines_nlFree (dataLine d)
        (nlFree_prefixed "data: ".toList (by decide) d hd)]
    rw [List.foldl_cons, processLine_dataLine_none {} d rfl, List.foldl_nil]
    rfl
  · intro i hi
    have hne2 : idLine i ≠ [] := by simp [idLine]
    rw [parseEventChunk_of_ne_nil _ hne2,
      splitLines_nlFree (idLine i)
        (nlFree_prefixed "id: ".toList (by decide) i hi)]
    rw [List.foldl_cons, processLine_idLine, List.foldl_nil]
    rfl

/-- C7 (witness): the theorem at concrete inputs, including the empty-event
default and the bare-`data` and bare-`id` records. -/
theorem C7_event_construction_witness :
    _parseEventChunk (joinNL [idLine "5".toList, eventLine "update".toList,
        dataLine "hello".toList]) =
      some { type := if ("update".toList : Str) = [] then "message".toList
                     else "update".toList,
             data := "hello".toList, id := some "5".toList } ∧
    _parseEventChunk (dataLine "x".toList) =
      some { type := "message".toList, data := "x".toList, id := none } ∧
    _parseEventChunk (idLine "7".toList) =
      some { type := "message".toList, data := [], id := some "7".toList } := by
  have h := C7_event_construction
  exact ⟨h.1 "5".toList "update".toList "hello".toList (by decide) (by decide)
      (by decide),
    h.2.1 "x".toList (by decide), h.2.2.1 "7".toList (by decide)⟩

/-- C8: after every sequence of `addEventListener`/`removeEventListener`
operations from the empty registry, no type maps to an empty or
duplicate-holding listener list; registering an identical reference twice
is a no-op; and removing the last listener of a type deletes the type's
entry. -/
theorem C8_registry_invariants :
    (∀ ops : List RegOp, RegWF (applyOps emptyRegistry ops)) ∧
    (∀ (r : Registry) (t : Str) (cb : Nat),
      addEventListener (addEventListener r t cb) t cb =
        addEventListener r t cb) ∧
    (∀ (r : Registry) (t : Str) (cb : Nat), r t = some [cb] →
      removeEventListener r t cb t = none) :=
  ⟨fun ops => RegWF_applyOps ops emptyRegistry RegWF_empty,
    addEventListener_idem, removeEventListener_deletes⟩

/-- C8 (witness): the invariants at a concrete operation sequence — after
adding callback 0 twice and callback 1 once for `"message"` and removing
callback 0, the entry holds exactly `[1]`, which is non-empty and
duplicate-free; removing the last listener deletes the entry. -/
theorem C8_registry_invariants_witness :
    ([1] ≠ ([] : List Nat) ∧ ([1] : List Nat).Nodup) ∧
    addEventListener (addEventListener emptyRegistry "message".toList 5)
        "message".toList 5 =
      addEventListener emptyRegistry "message".toList 5 ∧
    removeEventListener (addEventListener emptyRegistry "message".toList 7)
        "message".toList 7 "message".toList = none := by
  have h := C8_registry_invariants
  refine ⟨?_, h.2.1 emptyRegistry "message".toList 5,
    h.2.2 (addEventListener emptyRegistry "message".toList 7)
      "message".toList 7 (by decide)⟩
  exact h.1 [RegOp.add "message".toList 0, RegOp.add "message".toList 0,
      RegOp.add "message".toList 1, RegOp.remove "message".toList 0]
    "message".toList [1] (by decide)

/-- C9: a non-empty record all of whose lines are ignored — comments or
unrecognized field names — still parses to an event with type `"message"`,
empty data and null id, and the assembler dispatches it whenever the record
is not whitespace-only. -/
theorem C9_ignored_lines_default_event (c : Str) (hne : c ≠ [])
    (hign : ∀ l ∈ splitLines c, lineIgnored l = true) :
    _parseEventChunk c =
      some { type := "message".toList, data := [], id := none } ∧
    (trim c ≠ [] →
      partEvents c =
        [OutEvent.dataEvt
          { type := "message".toList, data := [], id := none }]) := by
  have hp : _parseEventChunk c =
      some { type := "message".toList, data := [], id := none } := by
    rw [parseEventChunk_of_ne_nil c hne, foldl_processLine_ignored _ {} hign]
    rfl
  refine ⟨hp, fun htr => ?_⟩
  unfold partEvents
  rw [if_pos (by simpa [List.length_pos] using htr), hp]

/-- C9 (witness): the theorem at the record `":comment\nfoo"` — a comment
line and an unrecognized bare field — which parses to a default `"message"`
event and is dispatched as one. -/
theorem C9_ignored_lines_default_event_witness :
    _parseEventChunk ":comment\nfoo".toList =
      some { type := "message".toList, data := [], id := none } ∧
    (trim ":comment\nfoo".toList ≠ [] →
      partEvents ":comment\nfoo".toList =
        [OutEvent.dataEvt
          { type := "message".toList, data := [], id := none }]) :=
  C9_ignored_lines_default_event ":comment\nfoo".toList (by decide) (by decide)

/-- C10: once the transport handle is cleared (as `close()` leaves it),
every subsequent progress or readystatechange notification is a no-op: the
state — in particular `readyState` — is unchanged and no event is
dispatched. -/
theorem C10_closed_notifications_noop (st : SSEState) (status : Nat)
    (txt : Str) (xrs : Nat) (hx : st.xhrAlive = false) :
    _onStreamProgress st status txt = (st, []) ∧
    _checkStreamClosed st xrs = (st, []) := by
  constructor
  · unfold _onStreamProgress
    rw [hx]
    simp
  · unfold _checkStreamClosed
    rw [hx]
    simp

/-- C10 (witness): the theorem at a concrete closed state. -/
theorem C10_closed_notifications_noop_witness :
    _onStreamProgress
        { readyState := CLOSED, progress := 3, chunk := "x".toList,
          xhrAlive := false } 200 "xyz".toList =
      ({ readyState := CLOSED, progress := 3, chunk := "x".toList,
         xhrAlive := false }, []) ∧
    _checkStreamClosed
        { readyState := CLOSED, progress := 3, chunk := "x".toList,
          xhrAlive := false } 4 =
      ({ readyState := CLOSED, progress := 3, chunk := "x".toList,
         xhrAlive := false }, []) :=
  C10_closed_notifications_noop _ 200 "xyz".toList 4 (by decide)

end SSEJS
